import Mathlib

/-!
Verification of the deterministic fingerprint engine implemented by class
`ProjectVersion` in `src/project_version.py`: file enumeration, parallel
per-file hashing with index-aligned result collection, digest aggregation,
the birthday-bound word-pair calculator and the phonetic encoder.

Modelling conventions:
* the md5/sha256 primitives are abstracted as an arbitrary function `H`
  from the sequence of bytes fed into the context to a hex digest string;
  a running `hashlib` context is modelled by the byte sequence fed so far;
* Python floats are modelled as real numbers, `math.log` as `Real.log`,
  `math.ceil` on floats as `Int.ceil`;
* Python ints are modelled as `Int` (or `Nat` where the source value is a
  length), a raised `ValueError` as `Except.error` carrying its message;
* the filesystem under the root directory is modelled as a finite tree
  whose child order is the directory-entry (traversal) order; a path below
  the root is its list of name components (`PurePath.parts` relative to
  the root); `Path.rglob(pattern)` yields every descendant — file or
  directory — whose name matches the pattern, and `sorted` on
  `pathlib.Path` values sorts by the component tuple (CPython orders
  `PurePath` values by parts, not by the joined path string).
-/

namespace ProjectVersion

def words_list : List String := [
  "Alfa", "Bravo", "Charlie", "Delta", "Echo", "Foxtrot", "Golf", "Hotel",
  "Juliette", "Kilo", "Lima", "Mike", "November", "Oscar", "Papa", "Romeo",
  "Sierra", "Tango", "Uniform", "Victor", "Whiskey", "X-ray", "Yankee", "Zulu",
  "Apple", "Banana", "Cherry", "Date", "Elder", "Fig", "Grape", "Honey",
  "Kiwi", "Lemon", "Mango", "Nectarine", "Olive", "Peach", "Quince", "Raspberry",
  "Strawberry", "Tangerine", "Valencia", "Watermelon", "Xigua", "Yam", "Zucchini", "Ant",
  "Bear", "Cat", "Dog", "Eagle", "Fox", "Giraffe", "Hippo", "Iguana",
  "Jaguar", "Kangaroo", "Lion", "Monkey", "Newt", "Owl", "Penguin", "Quail",
  "Rabbit", "Shark", "Turtle", "Urchin", "Vulture", "Walrus", "Yak", "Zebra",
  "Apricot", "Blueberry", "Cantaloupe", "Dragonfruit", "Elderberry", "Guava", "Honeydew", "Jackfruit",
  "Kumquat", "Lime", "Mulberry", "Nutmeg", "Passion", "Radish", "Squash", "Orange",
  "Vanilla", "Watercress", "Yarrow", "Amaranth", "Basil", "Chive", "Dill", "Endive",
  "Fennel", "Garlic", "Horseradish", "Iceberg", "Jicama", "Kale", "Lettuce", "Mint",
  "Nori", "Oregano", "Parsley", "Quinoa", "Radicchio", "Sage", "Thyme", "Upland",
  "Vetch", "Wasabi", "Almond", "Cashew", "Chestnut", "Hazelnut", "Macadamia", "Peanut",
  "Pecan", "Pistachio", "Walnut", "Amethyst", "Aquamarine", "Diamond", "Emerald", "Fire Opal",
  "Garnet", "Onyx", "Pearl", "Quartz", "Ruby", "Sapphire", "Topaz", "Turquoise",
  "Zircon", "Abacus", "Bell", "Candle", "Drum", "Egg", "Flute", "Guitar",
  "Harmonica", "Icicle", "Jar", "Kite", "Lantern", "Mirror", "Notebook", "Oboe",
  "Paintbrush", "Quilt", "Ruler", "Scissors", "Tambourine", "Ukulele", "Vase", "Whistle",
  "Xylophone", "Yarn", "Zipper", "Acorn", "Bookmark", "Compass", "Dice", "Envelope",
  "Feather", "Globe", "Hammer", "Ink", "Journal", "Key", "Lock", "Magnet",
  "Nail", "Ornament", "Paperclip", "Quill", "Stapler", "Ticket", "Umbrella", "Violin",
  "Wheel", "Yo-yo", "Asphalt", "Brick", "Cement", "Dirt", "Earth", "Foam",
  "Granite", "Herb", "Iron", "Jade", "Kelp", "Limestone", "Marble", "Nectar",
  "Opal", "Plaster", "Rock", "Sand", "Tile", "Underlay", "Vine", "Wool",
  "Yardstick", "Zenith", "Arch", "Beam", "Column", "Dome", "Edge", "Floor",
  "Gable", "Height", "Isle", "Joy", "Keystone", "Ledge", "Mantle", "Nook",
  "Oriel", "Parapet", "Quoin", "Rafter", "Stair", "Truss", "Upper", "Vault",
  "Wall", "Zone", "Act", "Ban", "Cast", "Drift", "Robot"]

def adjectives : List String := [
  "Bright", "Cheerful", "Lively", "Sunny", "Vivid", "Zesty", "Radiant", "Sparkling",
  "Brisk", "Crisp", "Daring", "Fearless", "Valiant", "Nimble", "Quick", "Snappy",
  "Clever", "Witty", "Sassy", "Quirky", "Playful", "Jolly", "Bubbly", "Smooth",
  "Sleek", "Glossy", "Polished", "Velvety", "Silky", "Lustrous", "Gleaming", "Gentle",
  "Tender", "Soft", "Mellow", "Calm", "Soothing", "Serene", "Peaceful", "Bold",
  "Dashing", "Gallant", "Stalwart", "Steady", "Dependable", "Reliable", "Loyal", "Sharp",
  "Astute", "Keen", "Perceptive", "Insightful", "Intuitive", "Shrewd", "Friendly", "Warm",
  "Kind", "Affectionate", "Caring", "Compassionate", "Helpful", "Supportive", "Elegant", "Graceful",
  "Charming", "Sophisticated", "Refined", "Dignified", "Poised", "Energetic", "Vigorous", "Dynamic",
  "Animated", "Excited", "Peppy", "Bouncy", "Unique", "Original", "Inventive", "Creative",
  "Imaginative", "Artistic", "Visionary", "Innovative", "Hardy", "Tough", "Rugged", "Robust",
  "Sturdy", "Resilient", "Enduring", "Unyielding", "Cheeky", "Jovial", "Whimsical", "Zany",
  "Wacky", "Majestic", "Grand", "Noble", "Regal", "Stately", "Magnificent", "Opulent",
  "Splendid", "Fresh", "Clean", "Pure", "Pristine", "Unspoiled", "Untouched", "Spotless",
  "Fast", "Rapid", "Swift", "Speedy", "Zippy", "Agile", "Luminous", "Glowing",
  "Shiny", "Brilliant", "Blazing", "Beaming", "Dazzling", "Silly", "Goofy", "Quaint",
  "Merry", "Snug", "Cozy", "Comfy", "Inviting", "Welcoming", "Cuddly", "Wise",
  "Sage", "Judicious", "Prudent", "Thoughtful", "Curious", "Inquisitive", "Eager", "Restless",
  "Questioning", "Investigative", "Observant", "Analytical"]

/-- Number of distinct `Adjective-Noun` pairs
(`total_combinations = len(self.adjectives) * len(self.words_list)`). -/
def total_combinations : Nat := adjectives.length * words_list.length

/-- Floor of the base-2 logarithm by repeated halving, structurally
recursive on a fuel bound (`fuel ≥ n` suffices, since halving reaches `1`
in at most `n` steps). -/
def floorLog2Aux : Nat → Nat → Nat
  | 0, _ => 0
  | fuel + 1, n => if 2 ≤ n then floorLog2Aux fuel (n / 2) + 1 else 0

/-- Floor of the base-2 logarithm of a positive natural number. -/
def floorLog2 (n : Nat) : Nat := floorLog2Aux n n

/-- `max_bits = math.floor(math.log2(total_combinations))`. -/
def max_bits : Nat := floorLog2 total_combinations

/-- `chunk_size = math.ceil(max_bits / 4)`: hex digits consumed per word
pair; `(a + 3) / 4` is the ceiling of `a / 4` in natural division. -/
def chunk_size : Nat := (max_bits + 3) / 4

/-- Value of a single hex digit, as `int(c, 16)` accepts it
(`0`-`9`, `a`-`f`, `A`-`F`). -/
def hexDigitVal (c : Char) : Nat :=
  if '0' <= c && c <= '9' then c.toNat - 48
  else if 'a' <= c && c <= 'f' then c.toNat - 87
  else if 'A' <= c && c <= 'F' then c.toNat - 55
  else 0

/-- Predicate for the characters `int(c, 16)` accepts. -/
def isHexChar (c : Char) : Bool :=
  ('0' <= c && c <= '9') || ('a' <= c && c <= 'f') || ('A' <= c && c <= 'F')

/-- `int(hex_group, 16)`: base-16 interpretation of a digit sequence. -/
def hexToNat (g : List Char) : Nat :=
  g.foldl (fun a c => 16 * a + hexDigitVal c) 0

/-- The group of characters starting at index `i`, right-padded to length
`k` with `'0'`: `version_hash[i : i + chunk_size].ljust(chunk_size, "0")`. -/
def sliceLJust (cs : List Char) (i k : Nat) : List Char :=
  (cs.drop i).take k
    ++ List.replicate (k - ((cs.drop i).take k).length) '0'

/-- The index sequence of Python `range(0, len, step)` for a positive
`step`: the `⌈len / step⌉` values `0, step, 2 * step, ...`. -/
def rangeStep (len step : Nat) : List Nat :=
  List.range' 0 ((len + step - 1) / step) step

/-- One `Adjective-Noun` token: `value` is already reduced modulo
`total_combinations`; `adj_index = value // len(words_list)` and
`word_index = value % len(words_list)`. -/
def pairToken (value : Nat) : String :=
  adjectives.getD (value / words_list.length) "" ++ "-"
    ++ words_list.getD (value % words_list.length) ""

/-- The phonetic-encoding loop of `ProjectVersion.hash` (lines 159-171):
for each `i` in `range(0, len(version_hash), chunk_size)`, slice and pad
the group at `i`, interpret it in base 16, reduce modulo
`total_combinations` and emit the corresponding word pair. -/
def encodeWords (digest : String) : List String :=
  (rangeStep digest.data.length chunk_size).map
    (fun i => pairToken (hexToNat (sliceLJust digest.data i chunk_size)
      % total_combinations))

/-- Spec-side formalization for the Phonetic Encoder contract, written
from the spec's words: the digest hex string is sliced into consecutive
chunks of `k` characters, the final chunk right-padded with `'0'` to
length `k`. -/
def specChunks (k : Nat) (cs : List Char) : List (List Char) :=
  match cs with
  | [] => []
  | c :: rest =>
      (List.take k (c :: rest) ++ List.replicate (k - (rest.length + 1)) '0')
        :: specChunks k (List.drop (k - 1) rest)
termination_by cs.length
decreasing_by simp [List.length_drop]; omega

/-- Spec-side formalization: a chunk is interpreted as a base-16 integer,
each digit weighted positionally. -/
def specHexValue : List Char → Nat
  | [] => 0
  | c :: cs => hexDigitVal c * 16 ^ cs.length + specHexValue cs

/-- Spec-side formalization: `maxBits = floor(log2(A * N))` with the
logarithm over the reals. -/
noncomputable def specMaxBits : ℤ :=
  ⌊Real.logb 2 ((adjectives.length * words_list.length : ℕ) : ℝ)⌋

/-- Spec-side formalization: `chunkSize = ceil(maxBits / 4)` with exact
rational division. -/
noncomputable def specChunkSize : ℤ := ⌈(specMaxBits : ℚ) / 4⌉

/-- Spec-side formalization of the Phonetic Encoder: slice into
consecutive `chunkSize`-character chunks, interpret each chunk in base 16,
reduce it modulo `A * N`, and split the index by integer division and
modulo into the `Adjective-Noun` token. -/
noncomputable def specEncode (digest : String) : List String :=
  (specChunks specChunkSize.toNat digest.data).map
    (fun g => pairToken (specHexValue g
      % (adjectives.length * words_list.length)))

/-- UTF-8 encoding of one character (the bytes `str.encode("utf-8")`
produces for it), as byte values below 256. -/
def utf8Char (c : Char) : List Nat :=
  let n := c.toNat
  if n < 128 then [n]
  else if n < 2048 then [192 + n / 64, 128 + n % 64]
  else if n < 65536 then [224 + n / 4096, 128 + n / 64 % 64, 128 + n % 64]
  else [240 + n / 262144, 128 + n / 4096 % 64, 128 + n / 64 % 64, 128 + n % 64]

/-- UTF-8 encoding of a string (`s.encode("utf-8")`). -/
def utf8 (s : String) : List Nat :=
  (s.data.map utf8Char).flatten

/-- A running `hashlib` context, modelled by the bytes fed to it so far. -/
structure HashCtx where
  fed : List Nat
deriving DecidableEq

/-- `hashlib.md5()` / `hashlib.sha256()`: a fresh context. -/
def HashCtx.init : HashCtx := ⟨[]⟩

/-- `hasher.update(bs)`. -/
def HashCtx.update (ctx : HashCtx) (bs : List Nat) : HashCtx :=
  ⟨ctx.fed ++ bs⟩

/-- `hasher.hexdigest()`, with the digest primitive abstracted as `H`. -/
def HashCtx.hexdigest (H : List Nat → String) (ctx : HashCtx) : String :=
  H ctx.fed

/-- One iteration of the aggregation loop (lines 152-155): an entry with a
present digest feeds the UTF-8 bytes of the path string and then the UTF-8
bytes of the hex digest string; an absent digest feeds nothing. -/
def aggregateStep (ctx : HashCtx) (entry : String × Option String) : HashCtx :=
  match entry.2 with
  | some h => (ctx.update (utf8 entry.1)).update (utf8 h)
  | none => ctx

/-- The whole aggregation loop over the zipped (path, digest) pairs. -/
def aggregate (entries : List (String × Option String)) : HashCtx :=
  entries.foldl aggregateStep HashCtx.init

/-- `version_hash`: the combined digest, finalized after the last entry. -/
def combinedDigest (H : List Nat → String) (files : List String)
    (hashes : List (Option String)) : String :=
  (aggregate (files.zip hashes)).hexdigest H

/-- The bytes an entry of the aggregation loop feeds into the context: a
present digest contributes the UTF-8 bytes of the path followed by the
UTF-8 bytes of the hex digest; an absent digest contributes no bytes. -/
def entryBytes (e : String × Option String) : List Nat :=
  match e.2 with
  | some h => utf8 e.1 ++ utf8 h
  | none => []

/-- One completion event of the thread pool: the worker hashing the file at
index `i` writes its outcome into slot `i` of the index-aligned result
array (`executor.map` keeps results aligned with input order, regardless of
which worker finishes first). -/
def writeSlot (f : String → Option String) (files : List String)
    (slots : List (Option (Option String))) (i : Nat) :
    List (Option (Option String)) :=
  slots.set i (some (f (files.getD i "")))

/-- Run the pool to completion: starting from all slots unfilled, process
the completion events in schedule order. -/
def runPool (f : String → Option String) (files : List String)
    (sched : List Nat) : List (Option (Option String)) :=
  sched.foldl (writeSlot f files) (List.replicate files.length none)

/-- Read the results out of the slots in index order; an unfilled slot
reads as an absent digest. -/
def poolResults (slots : List (Option (Option String))) : List (Option String) :=
  slots.map (fun s => s.getD none)

/-- `ValueError` message raised at line 129. -/
def errNoFiles : String := "No Python files found in the directory."

/-- `ValueError` message raised at line 193. -/
def errFileCount : String := "file_count must be at least 1."

/-- `ValueError` message raised at line 195. -/
def errProb : String := "accepted_collision_prob must be between 0 and 1 (exclusive)."

open Classical in
/-- `ProjectVersion.min_word_pairs_needed` (lines 177-207), with floats as
reals: validate the inputs, compute the required birthday-bound space
`required_H = file_count ** 2 / (-2 * math.log(1 - p))` and return
`math.ceil(math.log(required_H) / math.log(total_combinations))`. -/
noncomputable def min_word_pairs_needed (file_count : ℤ)
    (accepted_collision_prob : ℝ) : Except String ℤ :=
  if file_count < 1 then .error errFileCount
  else if ¬(0 < accepted_collision_prob ∧ accepted_collision_prob < 1) then
    .error errProb
  else
    let required_H : ℝ :=
      (file_count : ℝ) ^ 2 / (-2 * Real.log (1 - accepted_collision_prob))
    .ok ⌈Real.log required_H / Real.log (total_combinations : ℝ)⌉

/-- The final assembly of `ProjectVersion.hash` (lines 173-175): truncate
to `length` word pairs only when `length > 0`. -/
def finalWords (length : ℤ) (words : List String) : List String :=
  if 0 < length then words.take length.toNat else words

open Classical in
/-- `ProjectVersion.hash` (lines 114-175), parameterized by the ordered
FileSet `files` (the sorted `rglob` result), the per-file hashing outcome
`fh` (`_hash_file_parallel`: a hex digest, or `none` when hashing that file
failed), and the abstract digest primitive `H`: reject an empty FileSet,
compute the bounded length when `p > 0`, fold the per-file digests into the
combined digest, encode phonetically and truncate when bounded. -/
noncomputable def hash (H : List Nat → String) (files : List String)
    (fh : String → Option String) (p : ℝ) : Except String String :=
  if files.length = 0 then .error errNoFiles
  else do
    let length : ℤ ←
      if 0 < p then min_word_pairs_needed (files.length : ℤ) p else .ok (-1)
    let file_hashes := files.map fh
    let version_hash := combinedDigest H files file_hashes
    let words := encodeWords version_hash
    return String.intercalate " " (finalWords length words)

/-- The filesystem under the root directory, as a finite tree; the order of
`children` is the directory-entry order that `Path.rglob` traversal
follows. -/
inductive FSTree where
  | file (name : String)
  | dir (name : String) (children : List FSTree)

/-- The string `str(path)` of a component path: the components joined
with `/`. -/
def pathStr (p : List String) : String := String.intercalate "/" p

mutual

/-- `Path.rglob(pattern)` with the `*.py` suffix filter made explicit:
every entry reachable by recursive descent below the node — a plain file,
and also a DIRECTORY — whose own name ends with the suffix, in traversal
order; `pre` is the accumulated component path. `rglob` yields matching
directories as entries too (an empty directory named `d.py` is returned
by `rglob("*.py")`), and still descends into them. -/
def rglobNode (sfx : String) (pre : List String) : FSTree → List (List String)
  | .file n => if List.isSuffixOf sfx.data n.data then [pre ++ [n]] else []
  | .dir n cs =>
      (if List.isSuffixOf sfx.data n.data then [pre ++ [n]] else [])
        ++ rglobForest sfx (pre ++ [n]) cs

/-- Traversal of the children of a directory, in directory-entry order. -/
def rglobForest (sfx : String) (pre : List String) :
    List FSTree → List (List String)
  | [] => []
  | t :: ts => rglobNode sfx pre t ++ rglobForest sfx pre ts

end

mutual

/-- The suffix-matching plain FILES below a node, directories excluded:
the spec's notion of the matching files, used to compare against what the
program actually enumerates. -/
def matchedFilesNode (sfx : String) (pre : List String) :
    FSTree → List (List String)
  | .file n => if List.isSuffixOf sfx.data n.data then [pre ++ [n]] else []
  | .dir n cs => matchedFilesForest sfx (pre ++ [n]) cs

/-- The suffix-matching plain files below a list of siblings. -/
def matchedFilesForest (sfx : String) (pre : List String) :
    List FSTree → List (List String)
  | [] => []
  | t :: ts => matchedFilesNode sfx pre t ++ matchedFilesForest sfx pre ts

end

/-- `sorted(self.directory_path.rglob("*.py"))` (line 125), the root
directory modelled as its list of children: CPython orders `PurePath`
values componentwise (by the parts tuple), so `sorted` is the
lexicographic sort of the component lists. -/
def enumerateForest (sfx : String) (cs : List FSTree) : List (List String) :=
  List.insertionSort (fun a b => a ≤ b) (rglobForest sfx [] cs)

/-! ### Shared lemmas -/

set_option maxRecDepth 8000 in
theorem total_combinations_eq : total_combinations = 35372 := rfl

set_option maxRecDepth 8000 in
theorem max_bits_eq : max_bits = 15 := rfl

set_option maxRecDepth 8000 in
theorem chunk_size_eq : chunk_size = 4 := rfl

theorem aggregateStep_fed (ctx : HashCtx) (e : String × Option String) :
    (aggregateStep ctx e).fed = ctx.fed ++ entryBytes e := by
  rcases e with ⟨pa, h⟩
  cases h <;> simp [aggregateStep, entryBytes, HashCtx.update]

theorem foldl_aggregateStep_fed (entries : List (String × Option String))
    (ctx : HashCtx) :
    (entries.foldl aggregateStep ctx).fed
      = ctx.fed ++ (entries.map entryBytes).flatten := by
  induction entries generalizing ctx with
  | nil => simp
  | cons e es ih => simp [ih, aggregateStep_fed, List.append_assoc]

theorem aggregate_fed (entries : List (String × Option String)) :
    (aggregate entries).fed = (entries.map entryBytes).flatten := by
  simpa [aggregate, HashCtx.init] using foldl_aggregateStep_fed entries HashCtx.init

theorem zip_self_map {α β : Type} (l : List α) (f : α → β) :
    l.zip (l.map f) = l.map (fun x => (x, f x)) := by
  induction l with
  | nil => rfl
  | cons x xs ih => simp [ih]

theorem foldl_writeSlot_getElem (f : String → Option String)
    (files : List String) (sched : List Nat)
    (slots : List (Option (Option String))) (hlen : slots.length = files.length)
    (i : Nat) :
    (sched.foldl (writeSlot f files) slots)[i]? =
      if i ∈ sched ∧ i < files.length
      then some (some (f (files.getD i "")))
      else slots[i]? := by
  induction sched generalizing slots with
  | nil => simp
  | cons j rest ih =>
    rw [List.foldl_cons, ih (writeSlot f files slots j) (by simp [writeSlot, hlen])]
    by_cases hm : i ∈ rest ∧ i < files.length
    · rw [if_pos hm, if_pos ⟨List.mem_cons_of_mem j hm.1, hm.2⟩]
    · rw [if_neg hm]
      unfold writeSlot
      rw [List.getElem?_set]
      by_cases hj : j = i
      · subst hj
        by_cases hlt : j < files.length
        · rw [if_pos rfl, if_pos (by omega), if_pos ⟨List.mem_cons_self j rest, hlt⟩]
        · rw [if_pos rfl, if_neg (by omega), if_neg (by tauto),
            List.getElem?_eq_none (by omega)]
      · rw [if_neg hj]
        have : (i ∈ j :: rest ∧ i < files.length) ↔ (i ∈ rest ∧ i < files.length) := by
          constructor
          · rintro ⟨hmem, hlt⟩
            rcases List.mem_cons.mp hmem with h | h
            · exact absurd h.symm hj
            · exact ⟨h, hlt⟩
          · rintro ⟨hmem, hlt⟩
            exact ⟨List.mem_cons_of_mem j hmem, hlt⟩
        rw [if_neg (by tauto)]

theorem poolResults_runPool (f : String → Option String) (files : List String)
    (sched : List Nat) (hcov : ∀ i, i < files.length → i ∈ sched) :
    poolResults (runPool f files sched) = files.map f := by
  apply List.ext_getElem?
  intro i
  rw [poolResults, List.getElem?_map, runPool,
    foldl_writeSlot_getElem f files sched _ (by simp) i, List.getElem?_map]
  by_cases hi : i < files.length
  · rw [if_pos ⟨hcov i hi, hi⟩, Option.map_some', Option.getD_some,
      List.getElem?_eq_getElem hi, Option.map_some', List.getD_eq_getElem _ _ hi]
  · rw [if_neg (by tauto), List.getElem?_replicate]
    rw [if_neg hi, List.getElem?_eq_none (by omega)]
    rfl

theorem hash_ok (H : List Nat → String) (files : List String)
    (fh : String → Option String) (p : ℝ) (hne : files ≠ [])
    (hp0 : 0 < p) (hp1 : p < 1) :
    ProjectVersion.hash H files fh p
      = .ok (String.intercalate " "
          (finalWords
            ⌈Real.log ((((files.length : ℤ) : ℝ)) ^ 2
                / (-2 * Real.log (1 - p)))
              / Real.log (total_combinations : ℝ)⌉
            (encodeWords (combinedDigest H files (files.map fh))))) := by
  have hlen1 : 1 ≤ files.length := List.length_pos.mpr hne
  rw [ProjectVersion.hash, if_neg (by omega), if_pos hp0, min_word_pairs_needed,
    if_neg (by omega), if_neg (not_not_intro ⟨hp0, hp1⟩)]
  rfl

theorem flatten_entryBytes_filter (fh : String → Option String) (f0 : String)
    (hfail : fh f0 = none) (files : List String) :
    (files.map (fun x => entryBytes (x, fh x))).flatten
      = ((files.filter (fun x => x ≠ f0)).map
          (fun x => entryBytes (x, fh x))).flatten := by
  induction files with
  | nil => rfl
  | cons x xs ih =>
    by_cases hx : x = f0
    · subst hx
      have he : entryBytes (x, fh x) = [] := by simp [entryBytes, hfail]
      have hf : List.filter (fun y => y ≠ x) (x :: xs)
          = List.filter (fun y => y ≠ x) xs := by simp [List.filter_cons]
      rw [hf, List.map_cons, List.flatten_cons, he, List.nil_append, ih]
    · have hf : List.filter (fun y => y ≠ f0) (x :: xs)
          = x :: List.filter (fun y => y ≠ f0) xs := by
        simp [List.filter_cons, hx]
      rw [hf, List.map_cons, List.map_cons, List.flatten_cons,
        List.flatten_cons, ih]

theorem log_total_pos : 0 < Real.log (total_combinations : ℝ) := by
  apply Real.log_pos
  rw [total_combinations_eq]
  norm_num

theorem neg_two_log_pos {p : ℝ} (hp0 : 0 < p) (hp1 : p < 1) :
    0 < -2 * Real.log (1 - p) := by
  have h := Real.log_neg (by linarith : (0:ℝ) < 1 - p) (by linarith : (1:ℝ) - p < 1)
  linarith

/-- Concrete evaluation of the calculator at one file and probability 1/2:
the required space is `1 / (2 ln 2) < 1`, so the ceiling of its
base-`total_combinations` logarithm is 0. -/
theorem mwpn_one_half : min_word_pairs_needed 1 (1 / 2) = .ok 0 := by
  rw [min_word_pairs_needed, if_neg (by norm_num), if_neg (by norm_num)]
  have l2gt : (0.6931471803 : ℝ) < Real.log 2 := Real.log_two_gt_d9
  have l2lt : Real.log 2 < 0.6931471808 := Real.log_two_lt_d9
  have hgt1 : (1 : ℝ) < 2 * Real.log 2 := by linarith
  have hA : 0 < Real.log (2 * Real.log 2) := Real.log_pos hgt1
  have hB : 0 < Real.log ((total_combinations : ℕ) : ℝ) := log_total_pos
  have hAB : Real.log (2 * Real.log 2) < Real.log ((total_combinations : ℕ) : ℝ) := by
    apply Real.log_lt_log (by linarith)
    rw [total_combinations_eq]
    push_cast
    linarith
  have e1 : ((1 : ℤ) : ℝ) ^ 2 / (-2 * Real.log (1 - 1 / 2))
      = (2 * Real.log 2)⁻¹ := by
    rw [show (1 : ℝ) - 1 / 2 = 2⁻¹ by norm_num, Real.log_inv]
    push_cast
    field_simp
  have hz : ⌈Real.log (((1 : ℤ) : ℝ) ^ 2 / (-2 * Real.log (1 - 1 / 2)))
      / Real.log ((total_combinations : ℕ) : ℝ)⌉ = (0 : ℤ) := by
    rw [e1, Real.log_inv, Int.ceil_eq_zero_iff, Set.mem_Ioc]
    constructor
    · have h1 : Real.log (2 * Real.log 2)
          / Real.log ((total_combinations : ℕ) : ℝ) < 1 :=
        (div_lt_one hB).mpr hAB
      have h2 : -Real.log (2 * Real.log 2)
          / Real.log ((total_combinations : ℕ) : ℝ)
          = -(Real.log (2 * Real.log 2)
            / Real.log ((total_combinations : ℕ) : ℝ)) := by ring
      rw [h2]
      linarith
    · have h1 : 0 ≤ Real.log (2 * Real.log 2)
          / Real.log ((total_combinations : ℕ) : ℝ) :=
        div_nonneg (le_of_lt hA) (le_of_lt hB)
      have h2 : -Real.log (2 * Real.log 2)
          / Real.log ((total_combinations : ℕ) : ℝ)
          = -(Real.log (2 * Real.log 2)
            / Real.log ((total_combinations : ℕ) : ℝ)) := by ring
      rw [h2]
      linarith
  exact congrArg Except.ok hz

/-- Concrete evaluation of the calculator at two files and probability
1/2: the required space is `2 / ln 2`, strictly between 1 and
`total_combinations`, so one word pair is needed. -/
theorem mwpn_two_half : min_word_pairs_needed 2 (1 / 2) = .ok 1 := by
  rw [min_word_pairs_needed, if_neg (by norm_num), if_neg (by norm_num)]
  have l2gt : (0.6931471803 : ℝ) < Real.log 2 := Real.log_two_gt_d9
  have l2lt : Real.log 2 < 0.6931471808 := Real.log_two_lt_d9
  have l2pos : (0 : ℝ) < Real.log 2 := by linarith
  have hB : 0 < Real.log ((total_combinations : ℕ) : ℝ) := log_total_pos
  have e1 : ((2 : ℤ) : ℝ) ^ 2 / (-2 * Real.log (1 - 1 / 2))
      = 2 / Real.log 2 := by
    rw [show (1 : ℝ) - 1 / 2 = 2⁻¹ by norm_num, Real.log_inv]
    push_cast
    field_simp
    ring
  have hA : 0 < Real.log (2 / Real.log 2) := by
    apply Real.log_pos
    rw [lt_div_iff l2pos]
    linarith
  have hAB : Real.log (2 / Real.log 2)
      ≤ Real.log ((total_combinations : ℕ) : ℝ) := by
    rw [Real.log_le_log_iff (div_pos (by norm_num) l2pos)
      (by rw [total_combinations_eq]; positivity)]
    rw [div_le_iff l2pos, total_combinations_eq]
    push_cast
    nlinarith
  have hz : ⌈Real.log (((2 : ℤ) : ℝ) ^ 2 / (-2 * Real.log (1 - 1 / 2)))
      / Real.log ((total_combinations : ℕ) : ℝ)⌉ = (1 : ℤ) := by
    rw [e1, Int.ceil_eq_iff]
    constructor
    · have : (0 : ℝ) < Real.log (2 / Real.log 2)
          / Real.log ((total_combinations : ℕ) : ℝ) := div_pos hA hB
      push_cast
      linarith
    · have : Real.log (2 / Real.log 2)
          / Real.log ((total_combinations : ℕ) : ℝ) ≤ 1 :=
        (div_le_one hB).mpr hAB
      push_cast
      linarith
  exact congrArg Except.ok hz

theorem hexToNat_foldl (g : List Char) :
    ∀ a, g.foldl (fun a c => 16 * a + hexDigitVal c) a
      = a * 16 ^ g.length + specHexValue g := by
  induction g with
  | nil =>
    intro a
    simp [specHexValue]
  | cons c cs ih =>
    intro a
    rw [List.foldl_cons, ih]
    simp only [specHexValue, List.length_cons, pow_succ]
    ring

theorem hexToNat_eq_spec (g : List Char) : hexToNat g = specHexValue g := by
  simpa [hexToNat] using hexToNat_foldl g 0

theorem range'_slice_drop (cs : List Char) (m : Nat) :
    ∀ s, (List.range' (s + 4) m 4).map (fun i => sliceLJust cs i 4)
      = (List.range' s m 4).map (fun i => sliceLJust (cs.drop 4) i 4) := by
  induction m with
  | zero =>
    intro s
    rfl
  | succ m ih =>
    intro s
    rw [List.range'_succ, List.range'_succ, List.map_cons, List.map_cons]
    congr 1
    · simp [sliceLJust, List.drop_drop, Nat.add_comm]
    · exact ih (s + 4)

theorem chunks_eq_four_aux :
    ∀ (n : Nat) (cs : List Char), cs.length ≤ n →
      (rangeStep cs.length 4).map (fun i => sliceLJust cs i 4)
        = specChunks 4 cs := by
  intro n
  induction n with
  | zero =>
    intro cs hcs
    have h0 : cs = [] := List.length_eq_zero.mp (by omega)
    subst h0
    norm_num [rangeStep, specChunks]
  | succ n ih =>
    intro cs hcs
    cases cs with
    | nil => norm_num [rangeStep, specChunks]
    | cons c rest =>
      simp only [rangeStep, List.length_cons]
      rw [show (rest.length + 1 + 4 - 1) / 4 = rest.length / 4 + 1 by omega,
        List.range'_succ, List.map_cons]
      rw [show specChunks 4 (c :: rest)
          = (List.take 4 (c :: rest)
              ++ List.replicate (4 - (rest.length + 1)) '0')
            :: specChunks 4 (List.drop 3 rest) from by rw [specChunks]]
      congr 1
      · rw [sliceLJust, List.drop_zero]
        congr 2
        rw [List.length_take]
        simp only [List.length_cons]
        omega
      · have h1 : (List.range' 4 (rest.length / 4) 4).map
            (fun i => sliceLJust (c :: rest) i 4)
            = (List.range' 0 (rest.length / 4) 4).map
              (fun i => sliceLJust ((c :: rest).drop 4) i 4) := by
          simpa using range'_slice_drop (c :: rest) (rest.length / 4) 0
        rw [h1, show (c :: rest).drop 4 = rest.drop 3 from rfl]
        have hlen : (rest.drop 3).length ≤ n := by
          rw [List.length_drop]
          simp only [List.length_cons] at hcs
          omega
        have happ := ih (rest.drop 3) hlen
        rw [rangeStep, show ((rest.drop 3).length + 4 - 1) / 4
            = rest.length / 4 from by rw [List.length_drop]; omega] at happ
        exact happ

theorem chunks_eq_four (cs : List Char) :
    (rangeStep cs.length 4).map (fun i => sliceLJust cs i 4)
      = specChunks 4 cs :=
  chunks_eq_four_aux cs.length cs le_rfl

/-! ### Claims -/

/-- C1: for every ordered FileSet and index-aligned per-file hash results
produced by the worker pool under any completion schedule that covers all
indices, the combined digest is obtained by feeding, in FileSet order, the
UTF-8 bytes of each present entry's path string followed by the UTF-8
bytes of its hex digest string into a single context and finalizing;
absent digests contribute no bytes, and the completion order of the
hashing workers never affects the result. -/
theorem combined_digest_deterministic
    (H : List Nat → String) (files : List String) (f : String → Option String)
    (sched1 sched2 : List Nat)
    (h1 : ∀ i, i < files.length → i ∈ sched1)
    (h2 : ∀ i, i < files.length → i ∈ sched2) :
    combinedDigest H files (poolResults (runPool f files sched1))
        = combinedDigest H files (poolResults (runPool f files sched2))
      ∧ combinedDigest H files (poolResults (runPool f files sched1))
        = H (((files.map (fun pa => (pa, f pa))).map entryBytes).flatten) := by
  rw [poolResults_runPool f files sched1 h1, poolResults_runPool f files sched2 h2]
  refine ⟨rfl, ?_⟩
  rw [combinedDigest, HashCtx.hexdigest, zip_self_map, aggregate_fed]

/-- C1, witness: a two-file set hashed under two different completion
orders, one of them with a repeated completion event. -/
theorem combined_digest_deterministic_witness :
    ((∀ i, i < (["a.py", "b.py"] : List String).length → i ∈ [1, 0])
      ∧ (∀ i, i < (["a.py", "b.py"] : List String).length → i ∈ [0, 1, 1]))
    ∧ (combinedDigest (fun bs => toString bs.length) ["a.py", "b.py"]
          (poolResults (runPool (fun s => some s) ["a.py", "b.py"] [1, 0]))
        = combinedDigest (fun bs => toString bs.length) ["a.py", "b.py"]
          (poolResults (runPool (fun s => some s) ["a.py", "b.py"] [0, 1, 1]))
      ∧ combinedDigest (fun bs => toString bs.length) ["a.py", "b.py"]
          (poolResults (runPool (fun s => some s) ["a.py", "b.py"] [1, 0]))
        = (fun bs => toString bs.length)
            ((((["a.py", "b.py"] : List String).map
              (fun pa => (pa, some pa))).map entryBytes).flatten)) :=
  ⟨⟨by decide, by decide⟩,
    combined_digest_deterministic (fun bs => toString bs.length)
      ["a.py", "b.py"] (fun s => some s) [1, 0] [0, 1, 1]
      (by decide) (by decide)⟩

/-- C5: when hashing exactly one file of the FileSet fails and every other
file hashes successfully, `hash` does not raise (it returns a complete
fingerprint string for every probability in the valid range), and the
combined digest it folds equals the digest obtained by omitting only the
failed file's (path, digest) contribution. -/
theorem partial_failure_excludes_only_failed
    (H : List Nat → String) (files : List String)
    (fh : String → Option String) (f0 : String) (p : ℝ)
    (hmem : f0 ∈ files) (hfail : fh f0 = none)
    (hrest : ∀ x ∈ files, x ≠ f0 → (fh x).isSome)
    (hp0 : 0 < p) (hp1 : p < 1) :
    (∃ s, ProjectVersion.hash H files fh p = .ok s)
      ∧ combinedDigest H files (files.map fh)
        = combinedDigest H (files.filter (fun x => x ≠ f0))
            ((files.filter (fun x => x ≠ f0)).map fh) := by
  have hne : files ≠ [] := by
    intro h
    rw [h] at hmem
    exact absurd hmem (List.not_mem_nil f0)
  refine ⟨⟨_, hash_ok H files fh p hne hp0 hp1⟩, ?_⟩
  rw [combinedDigest, combinedDigest, HashCtx.hexdigest, HashCtx.hexdigest,
    zip_self_map, zip_self_map, aggregate_fed, aggregate_fed,
    List.map_map, List.map_map]
  exact congrArg H (flatten_entryBytes_filter fh f0 hfail files)

/-- C5, witness: a two-file set in which only the second file fails to
hash, at probability 1/2. -/
theorem partial_failure_excludes_only_failed_witness :
    ("b.py" ∈ (["a.py", "b.py"] : List String)
        ∧ (fun x => if x = "a.py" then some "d0" else none) "b.py" = none
        ∧ (∀ x ∈ (["a.py", "b.py"] : List String), x ≠ "b.py" →
            ((fun x => if x = "a.py" then some "d0" else none) x).isSome)
        ∧ (0 : ℝ) < 1 / 2 ∧ (1 : ℝ) / 2 < 1)
    ∧ ((∃ s, ProjectVersion.hash (fun bs => toString bs.length)
          ["a.py", "b.py"] (fun x => if x = "a.py" then some "d0" else none)
          (1 / 2) = .ok s)
      ∧ combinedDigest (fun bs => toString bs.length) ["a.py", "b.py"]
          ((["a.py", "b.py"] : List String).map
            (fun x => if x = "a.py" then some "d0" else none))
        = combinedDigest (fun bs => toString bs.length)
            ((["a.py", "b.py"] : List String).filter (fun x => x ≠ "b.py"))
            (((["a.py", "b.py"] : List String).filter
              (fun x => x ≠ "b.py")).map
              (fun x => if x = "a.py" then some "d0" else none))) :=
  ⟨⟨by decide, by decide, by decide, by norm_num, by norm_num⟩,
    partial_failure_excludes_only_failed (fun bs => toString bs.length)
      ["a.py", "b.py"] (fun x => if x = "a.py" then some "d0" else none)
      "b.py" (1 / 2) (by decide) (by decide) (by decide)
      (by norm_num) (by norm_num)⟩

/-- C9, counterexample: a root whose only entry is an empty DIRECTORY
named `d.py` contains zero suffix-matching files, yet `rglob("*.py")`
yields that directory, so the program sees `file_count = 1`, raises
nothing, and returns a fingerprint string (opening the directory fails and
is absorbed as an absent digest), refuting the claim that zero matching
files raise `NoFilesFound`. -/
theorem no_files_cex :
    matchedFilesForest ".py" [] [FSTree.dir "d.py" []] = []
      ∧ (enumerateForest ".py" [FSTree.dir "d.py" []]).map pathStr = ["d.py"]
      ∧ ProjectVersion.hash (fun _ => "") ["d.py"] (fun _ => none) (1 / 2)
          = .ok "" := by
  refine ⟨rfl, rfl, ?_⟩
  rw [ProjectVersion.hash, if_neg (by simp), if_pos (by norm_num),
    show ((["d.py"] : List String).length : ℤ) = 1 from rfl, mwpn_one_half]
  have h1 : encodeWords (combinedDigest (fun _ => "") ["d.py"]
      (List.map (fun _ => none) ["d.py"])) = [] := by
    rw [show combinedDigest (fun _ => "") ["d.py"]
        (List.map (fun _ => none) ["d.py"]) = "" from rfl, encodeWords]
    simp [rangeStep, chunk_size_eq]
  show (Except.ok (String.intercalate " "
      (finalWords 0 (encodeWords (combinedDigest (fun _ => "") ["d.py"]
        (List.map (fun _ => none) ["d.py"]))))) : Except String String)
    = Except.ok ""
  rw [h1]
  rfl

/-- C9 amended: the fingerprint operation raises `NoFilesFound` exactly
when `rglob` yields zero matching ENTRIES (files or directories); a
directory whose name matches the pattern prevents the error even with
zero matching files, and the empty match list itself is not an
Enumerator-level error — the Enumerator returns it without raising. -/
theorem no_files_error_amended (H : List Nat → String)
    (fh : String → Option String) (p : ℝ) (sfx : String) (cs : List FSTree)
    (hempty : rglobForest sfx [] cs = []) :
    enumerateForest sfx cs = []
      ∧ ProjectVersion.hash H ((enumerateForest sfx cs).map pathStr) fh p
          = .error errNoFiles := by
  have h1 : enumerateForest sfx cs = [] := by
    rw [enumerateForest, hempty]
    rfl
  refine ⟨h1, ?_⟩
  rw [h1, ProjectVersion.hash]
  simp

/-- C9 amended, witness: a root with entries, none of which — file or
directory — matches the `.py` suffix. -/
theorem no_files_error_amended_witness :
    rglobForest ".py" [] [FSTree.file "notes.txt",
        FSTree.dir "sub" [FSTree.file "data.csv"]] = []
      ∧ (enumerateForest ".py" [FSTree.file "notes.txt",
            FSTree.dir "sub" [FSTree.file "data.csv"]] = []
        ∧ ProjectVersion.hash (fun bs => toString bs.length)
            ((enumerateForest ".py" [FSTree.file "notes.txt",
              FSTree.dir "sub" [FSTree.file "data.csv"]]).map pathStr)
            (fun _ => none) (1 / 2) = .error errNoFiles) :=
  ⟨rfl, no_files_error_amended (fun bs => toString bs.length)
    (fun _ => none) (1 / 2) ".py" _ rfl⟩

/-- C6, counterexample: with one matching file and
`accepted_collision_probability = 0`, `hash` does not raise: the `p > 0`
guard at line 135 bypasses the calculator, so the call returns a
fingerprint string (here the empty join produced by the stub digest
primitive), refuting the claim that every `p ≤ 0` raises
`InvalidProbability`. -/
theorem invalid_probability_cex :
    ProjectVersion.hash (fun _ => "") ["a.py"] (fun _ => none) 0 = .ok "" := by
  rw [ProjectVersion.hash, if_neg (by simp), if_neg (by norm_num)]
  have h1 : encodeWords (combinedDigest (fun _ => "") ["a.py"]
      (List.map (fun _ => none) ["a.py"])) = [] := by
    rw [show combinedDigest (fun _ => "") ["a.py"]
        (List.map (fun _ => none) ["a.py"]) = "" from rfl, encodeWords]
    simp [rangeStep, chunk_size_eq]
  show (Except.ok (String.intercalate " "
      (finalWords (-1) (encodeWords (combinedDigest (fun _ => "") ["a.py"]
        (List.map (fun _ => none) ["a.py"]))))) : Except String String)
    = Except.ok ""
  rw [h1]
  rfl

/-- C6 amended: with at least one matching file, the fingerprint operation
raises the `InvalidProbability` error exactly for `p ≥ 1`; a non-positive
`p` instead selects unbounded mode and returns the full fingerprint
string. -/
theorem invalid_probability_amended (H : List Nat → String)
    (files : List String) (fh : String → Option String) (p : ℝ)
    (hne : files ≠ []) :
    (1 ≤ p → ProjectVersion.hash H files fh p = .error errProb)
      ∧ (p ≤ 0 → ProjectVersion.hash H files fh p
          = .ok (String.intercalate " "
              (encodeWords (combinedDigest H files (files.map fh))))) := by
  have hlen1 : 1 ≤ files.length := List.length_pos.mpr hne
  constructor
  · intro hp
    rw [ProjectVersion.hash, if_neg (by omega), if_pos (by linarith),
      min_word_pairs_needed, if_neg (by omega),
      if_pos (by rintro ⟨h1, h2⟩; linarith)]
    rfl
  · intro hp
    rw [ProjectVersion.hash, if_neg (by omega), if_neg (not_lt.mpr hp)]
    rfl

/-- C6 amended, witness: one matching file at `p = 1` (error) and at
`p = 0` (unbounded success). -/
theorem invalid_probability_amended_witness :
    ((["a.py"] : List String) ≠ [])
      ∧ ProjectVersion.hash (fun _ => "") ["a.py"] (fun _ => none) 1
          = .error errProb
      ∧ ProjectVersion.hash (fun _ => "") ["a.py"] (fun _ => none) 0
          = .ok (String.intercalate " "
              (encodeWords (combinedDigest (fun _ => "") ["a.py"]
                ((["a.py"] : List String).map (fun _ => none))))) :=
  ⟨by decide,
    (invalid_probability_amended (fun _ => "") ["a.py"] (fun _ => none) 1
      (by decide)).1 le_rfl,
    (invalid_probability_amended (fun _ => "") ["a.py"] (fun _ => none) 0
      (by decide)).2 le_rfl⟩

/-- C3: for valid inputs (`fileCount ≥ 1`, `0 < p < 1`) the calculator
returns exactly `⌈log_V (fileCount² / (-2 ln (1 - p)))⌉` with
`V = total_combinations`, and it raises `ValueError` if and only if the
inputs are invalid. -/
theorem min_word_pairs_spec (n : ℤ) (p : ℝ) :
    (1 ≤ n ∧ 0 < p ∧ p < 1 →
      min_word_pairs_needed n p
        = .ok ⌈Real.logb (total_combinations : ℝ)
            ((n : ℝ) ^ 2 / (-2 * Real.log (1 - p)))⌉)
    ∧ (¬(1 ≤ n ∧ 0 < p ∧ p < 1) →
      min_word_pairs_needed n p = .error errFileCount
        ∨ min_word_pairs_needed n p = .error errProb) := by
  constructor
  · rintro ⟨h1, h2, h3⟩
    rw [min_word_pairs_needed, if_neg (by omega),
      if_neg (not_not_intro ⟨h2, h3⟩)]
    exact congrArg Except.ok (by rw [Real.log_div_log])
  · intro h
    rw [min_word_pairs_needed]
    by_cases hn : n < 1
    · rw [if_pos hn]
      exact Or.inl rfl
    · rw [if_neg hn, if_pos (fun hp => h ⟨by omega, hp⟩)]
      exact Or.inr rfl

/-- C3, witness: one file at probability 1/2. -/
theorem min_word_pairs_spec_witness :
    ((1 : ℤ) ≤ 1 ∧ (0 : ℝ) < 1 / 2 ∧ (1 / 2 : ℝ) < 1)
    ∧ min_word_pairs_needed 1 (1 / 2)
        = .ok ⌈Real.logb (total_combinations : ℝ)
            (((1 : ℤ) : ℝ) ^ 2 / (-2 * Real.log (1 - 1 / 2)))⌉ :=
  ⟨⟨le_refl 1, by norm_num, by norm_num⟩,
    (min_word_pairs_spec 1 (1 / 2)).1 ⟨le_refl 1, by norm_num, by norm_num⟩⟩

/-- C8: for a fixed probability in (0,1), the calculator is non-decreasing
in the file count. -/
theorem min_word_pairs_monotone (p : ℝ) (n1 n2 k1 k2 : ℤ)
    (hp0 : 0 < p) (hp1 : p < 1) (h1 : 1 ≤ n1) (h12 : n1 ≤ n2)
    (e1 : min_word_pairs_needed n1 p = .ok k1)
    (e2 : min_word_pairs_needed n2 p = .ok k2) : k1 ≤ k2 := by
  rw [min_word_pairs_needed, if_neg (by omega),
    if_neg (not_not_intro ⟨hp0, hp1⟩)] at e1
  rw [min_word_pairs_needed, if_neg (by omega),
    if_neg (not_not_intro ⟨hp0, hp1⟩)] at e2
  have hk1 := (Except.ok.inj e1).symm
  have hk2 := (Except.ok.inj e2).symm
  subst hk1
  subst hk2
  have hc : 0 < -2 * Real.log (1 - p) := neg_two_log_pos hp0 hp1
  have hn1 : (0 : ℝ) < (n1 : ℝ) := by exact_mod_cast (by omega : (0 : ℤ) < n1)
  have hn12 : (n1 : ℝ) ≤ (n2 : ℝ) := by exact_mod_cast h12
  have hsq : (n1 : ℝ) ^ 2 ≤ (n2 : ℝ) ^ 2 := by nlinarith
  have harg : (n1 : ℝ) ^ 2 / (-2 * Real.log (1 - p))
      ≤ (n2 : ℝ) ^ 2 / (-2 * Real.log (1 - p)) :=
    (div_le_div_right hc).mpr hsq
  have hlog : Real.log ((n1 : ℝ) ^ 2 / (-2 * Real.log (1 - p)))
      ≤ Real.log ((n2 : ℝ) ^ 2 / (-2 * Real.log (1 - p))) := by
    rw [Real.log_le_log_iff (div_pos (pow_pos hn1 2) hc)
      (div_pos (pow_pos (lt_of_lt_of_le hn1 hn12) 2) hc)]
    exact harg
  exact Int.ceil_le_ceil ((div_le_div_right log_total_pos).mpr hlog)

/-- C8, witness: file counts 1 and 2 at probability 1/2. -/
theorem min_word_pairs_monotone_witness :
    ((0 : ℝ) < 1 / 2 ∧ (1 / 2 : ℝ) < 1 ∧ (1 : ℤ) ≤ 1 ∧ (1 : ℤ) ≤ 2
        ∧ min_word_pairs_needed 1 (1 / 2) = .ok 0
        ∧ min_word_pairs_needed 2 (1 / 2) = .ok 1)
      ∧ (0 : ℤ) ≤ 1 :=
  ⟨⟨by norm_num, by norm_num, le_refl 1, by norm_num, mwpn_one_half,
      mwpn_two_half⟩,
    min_word_pairs_monotone (1 / 2) 1 2 0 1 (by norm_num) (by norm_num)
      (le_refl 1) (by norm_num) mwpn_one_half mwpn_two_half⟩

/-- C7, counterexample: at `fileCount = 1` and probability `1/2` (inside
`(0,1)`), the calculator returns 0 word pairs, so the returned length is
not at least 1. -/
theorem single_file_length_cex :
    ((0 : ℝ) < 1 / 2 ∧ (1 / 2 : ℝ) < 1)
      ∧ min_word_pairs_needed 1 (1 / 2) = .ok 0
      ∧ ¬(1 ≤ (0 : ℤ)) :=
  ⟨⟨by norm_num, by norm_num⟩, mwpn_one_half, by norm_num⟩

/-- C7 amended: for `fileCount = 1` and every `p` in (0,1), the calculator
returns the least integer `k` with `V ^ k ≥ 1 / (-2 ln (1 - p))`
(`V = total_combinations`), and that `k` is at least 1 exactly when
`p < 1 - e^(-1/2)`; for larger `p` the result is 0 or negative. -/
theorem single_file_length_amended (p : ℝ) (hp0 : 0 < p) (hp1 : p < 1) :
    ∃ k : ℤ, min_word_pairs_needed 1 p = .ok k
      ∧ (∀ j : ℤ, k ≤ j ↔
          1 / (-2 * Real.log (1 - p)) ≤ (total_combinations : ℝ) ^ (j : ℝ))
      ∧ (1 ≤ k ↔ p < 1 - Real.exp (-(1 / 2) : ℝ)) := by
  have hc : 0 < -2 * Real.log (1 - p) := neg_two_log_pos hp0 hp1
  have hH : 0 < 1 / (-2 * Real.log (1 - p)) := by positivity
  have hV1 : (1 : ℝ) < (total_combinations : ℝ) := by
    rw [total_combinations_eq]
    norm_num
  refine ⟨⌈Real.logb (total_combinations : ℝ)
      (1 / (-2 * Real.log (1 - p)))⌉, ?_, ?_, ?_⟩
  · rw [min_word_pairs_needed, if_neg (by norm_num),
      if_neg (not_not_intro ⟨hp0, hp1⟩)]
    refine congrArg Except.ok ?_
    rw [show ((1 : ℤ) : ℝ) ^ 2 / (-2 * Real.log (1 - p))
        = 1 / (-2 * Real.log (1 - p)) by push_cast; ring,
      Real.log_div_log]
  · intro j
    rw [Int.ceil_le, Real.logb_le_iff_le_rpow hV1 hH]
  · rw [show (1 : ℤ) ≤ ⌈Real.logb (total_combinations : ℝ)
          (1 / (-2 * Real.log (1 - p)))⌉
        ↔ 0 < ⌈Real.logb (total_combinations : ℝ)
          (1 / (-2 * Real.log (1 - p)))⌉ by omega,
      Int.ceil_pos, Real.logb_pos_iff hV1 hH, lt_div_iff hc, one_mul]
    constructor
    · intro h
      have h2 : -(1 / 2 : ℝ) < Real.log (1 - p) := by linarith
      have h3 : Real.exp (-(1 / 2 : ℝ)) < Real.exp (Real.log (1 - p)) :=
        Real.exp_lt_exp.mpr h2
      rw [Real.exp_log (by linarith : (0 : ℝ) < 1 - p)] at h3
      linarith
    · intro h
      have h2 : Real.exp (-(1 / 2 : ℝ)) < 1 - p := by linarith
      have h3 : Real.log (Real.exp (-(1 / 2 : ℝ))) < Real.log (1 - p) :=
        Real.log_lt_log (Real.exp_pos _) h2
      rw [Real.log_exp] at h3
      linarith

/-- C7 amended, witness: probability 1/2. -/
theorem single_file_length_amended_witness :
    ((0 : ℝ) < 1 / 2 ∧ (1 / 2 : ℝ) < 1)
      ∧ (∃ k : ℤ, min_word_pairs_needed 1 (1 / 2) = .ok k
        ∧ (∀ j : ℤ, k ≤ j ↔
            1 / (-2 * Real.log (1 - 1 / 2))
              ≤ (total_combinations : ℝ) ^ (j : ℝ))
        ∧ (1 ≤ k ↔ (1 / 2 : ℝ) < 1 - Real.exp (-(1 / 2) : ℝ))) :=
  ⟨⟨by norm_num, by norm_num⟩,
    single_file_length_amended (1 / 2) (by norm_num) (by norm_num)⟩

/-- C10: when the calculator reports a word-pair length of 0 (as it does
for one file once `p ≥ 1 - e^(-1/2)`), the `length > 0` guard skips
truncation and `hash` returns the full untruncated token sequence rather
than an empty one. -/
theorem zero_length_skips_truncation (H : List Nat → String)
    (files : List String) (fh : String → Option String) (p : ℝ)
    (hne : files ≠ []) (hp : 0 < p)
    (hzero : min_word_pairs_needed (files.length : ℤ) p = .ok 0) :
    ProjectVersion.hash H files fh p
      = .ok (String.intercalate " "
          (encodeWords (combinedDigest H files (files.map fh)))) := by
  have hlen1 : 1 ≤ files.length := List.length_pos.mpr hne
  rw [ProjectVersion.hash, if_neg (by omega), if_pos hp, hzero]
  rfl

/-- C10, witness: one file at probability 1/2, where the calculator
returns 0. -/
theorem zero_length_skips_truncation_witness :
    ((["a.py"] : List String) ≠ [] ∧ (0 : ℝ) < 1 / 2
        ∧ min_word_pairs_needed ((["a.py"] : List String).length : ℤ) (1 / 2)
            = .ok 0)
      ∧ ProjectVersion.hash (fun bs => toString bs.length) ["a.py"]
          (fun _ => some "d0") (1 / 2)
        = .ok (String.intercalate " "
            (encodeWords (combinedDigest (fun bs => toString bs.length)
              ["a.py"] ((["a.py"] : List String).map (fun _ => some "d0"))))) :=
  ⟨⟨by decide, by norm_num, mwpn_one_half⟩,
    zero_length_skips_truncation (fun bs => toString bs.length) ["a.py"]
      (fun _ => some "d0") (1 / 2) (by decide) (by norm_num) mwpn_one_half⟩

/-- C4, counterexample: two refutations on concrete trees. With sibling
entries `x/` (containing `x/y.py`) and `x.py`, the enumeration — sorted by
path components as CPython sorts `Path` values — yields `x/y.py` before
`x.py`, while string order puts `x.py` first (`'.' < '/'`), so the output
is not ordered by the lexicographic order of the path strings. And with
sibling entries `d.py/` (an empty directory) and `a.py`, the enumeration
contains the directory entry `d.py`, so it is not exactly the
suffix-matching files. -/
theorem enumerate_cex :
    (enumerateForest ".py"
          [FSTree.dir "x" [FSTree.file "y.py"], FSTree.file "x.py"]).map
        pathStr = ["x/y.py", "x.py"]
      ∧ matchedFilesForest ".py" []
          [FSTree.dir "x" [FSTree.file "y.py"], FSTree.file "x.py"]
        = [["x", "y.py"], ["x.py"]]
      ∧ ¬ List.Sorted (· ≤ ·) (["x/y.py", "x.py"] : List String)
      ∧ enumerateForest ".py" [FSTree.dir "d.py" [], FSTree.file "a.py"]
        = [["a.py"], ["d.py"]]
      ∧ matchedFilesForest ".py" []
          [FSTree.dir "d.py" [], FSTree.file "a.py"]
        = [["a.py"]] := by
  have hx : ("x" : String) < "x.py" := by
    rw [String.lt_iff_toList_lt]
    decide
  have ha : ("a.py" : String) < "d.py" := by
    rw [String.lt_iff_toList_lt]
    decide
  have hxy : ("x.py" : String) < "x/y.py" := by
    rw [String.lt_iff_toList_lt]
    decide
  refine ⟨?_, rfl, ?_, ?_, rfl⟩
  · rw [enumerateForest, show rglobForest ".py" []
        [FSTree.dir "x" [FSTree.file "y.py"], FSTree.file "x.py"]
        = [["x", "y.py"], ["x.py"]] from rfl]
    simp only [List.insertionSort, List.orderedInsert]
    rw [if_pos (le_of_lt (List.Lex.rel hx))]
    rfl
  · intro h
    have h2 := (List.sorted_cons.mp h).1 "x.py" (by simp)
    exact absurd h2 (not_le.mpr hxy)
  · rw [enumerateForest, show rglobForest ".py" []
        [FSTree.dir "d.py" [], FSTree.file "a.py"]
        = [["d.py"], ["a.py"]] from rfl]
    simp only [List.insertionSort, List.orderedInsert]
    rw [if_neg (not_le.mpr (List.Lex.rel ha))]

/-- C4 amended: the Enumerator returns exactly the suffix-matching
ENTRIES reachable by recursive descent — files and also directories whose
names match the pattern — ordered by the componentwise (path-parts)
lexicographic order of the path relative to the root, the order CPython
gives `sorted` on `Path` values; the result is determined by the
matched-entry multiset alone — any two roots whose traversals yield the
same entries in any order enumerate identically — so it is stable across
repeated invocations on an unchanged tree and independent of the
filesystem's directory-entry order. -/
theorem enumerate_sorted_amended (sfx : String) (cs1 cs2 : List FSTree)
    (hperm : (rglobForest sfx [] cs1).Perm (rglobForest sfx [] cs2)) :
    enumerateForest sfx cs1 = enumerateForest sfx cs2
      ∧ List.Sorted (· ≤ ·) (enumerateForest sfx cs1)
      ∧ (enumerateForest sfx cs1).Perm (rglobForest sfx [] cs1) := by
  have s1 := List.sorted_insertionSort (fun a b : List String => a ≤ b)
    (rglobForest sfx [] cs1)
  have s2 := List.sorted_insertionSort (fun a b : List String => a ≤ b)
    (rglobForest sfx [] cs2)
  have p1 := List.perm_insertionSort (fun a b : List String => a ≤ b)
    (rglobForest sfx [] cs1)
  have p2 := List.perm_insertionSort (fun a b : List String => a ≤ b)
    (rglobForest sfx [] cs2)
  refine ⟨?_, s1, p1⟩
  exact List.eq_of_perm_of_sorted (p1.trans (hperm.trans p2.symm)) s1 s2

/-- C4 amended, witness: the same two entries visited in opposite
traversal orders. -/
theorem enumerate_sorted_amended_witness :
    (rglobForest ".py" [] [FSTree.file "b.py", FSTree.file "a.py"]).Perm
        (rglobForest ".py" [] [FSTree.file "a.py", FSTree.file "b.py"])
      ∧ (enumerateForest ".py" [FSTree.file "b.py", FSTree.file "a.py"]
          = enumerateForest ".py" [FSTree.file "a.py", FSTree.file "b.py"]
        ∧ List.Sorted (· ≤ ·)
            (enumerateForest ".py" [FSTree.file "b.py", FSTree.file "a.py"])
        ∧ (enumerateForest ".py"
              [FSTree.file "b.py", FSTree.file "a.py"]).Perm
            (rglobForest ".py" [] [FSTree.file "b.py", FSTree.file "a.py"])) :=
  ⟨List.Perm.swap ["a.py"] ["b.py"] [],
    enumerate_sorted_amended ".py" [FSTree.file "b.py", FSTree.file "a.py"]
      [FSTree.file "a.py", FSTree.file "b.py"]
      (List.Perm.swap ["a.py"] ["b.py"] [])⟩

/-- C2: the Phonetic Encoder computes `maxBits = floor(log2(A * N))` and
`chunkSize = ceil(maxBits / 4)`, slices the hex digest into consecutive
`chunkSize`-character chunks with the final chunk right-padded with `'0'`,
interprets each chunk in base 16, reduces it modulo `A * N`, splits the
value by division and modulo into the adjective and noun indices, and in
bounded mode truncates the token sequence to the first `WordPairLength`
tokens before space-joining. -/
theorem encoder_matches_spec (digest : String) (L : ℤ)
    (hhex : ∀ c ∈ digest.data, isHexChar c) :
    (max_bits : ℤ) = specMaxBits
      ∧ (chunk_size : ℤ) = specChunkSize
      ∧ encodeWords digest = specEncode digest
      ∧ (0 < L →
          finalWords L (encodeWords digest)
            = (encodeWords digest).take L.toNat) := by
  have hVnat : adjectives.length * words_list.length = 35372 :=
    total_combinations_eq
  have hmb : specMaxBits = 15 := by
    rw [specMaxBits, hVnat, Int.floor_eq_iff]
    constructor
    · rw [Real.le_logb_iff_rpow_le (by norm_num) (by norm_num)]
      rw [show ((15 : ℤ) : ℝ) = ((15 : ℕ) : ℝ) by norm_num,
        Real.rpow_natCast]
      norm_num
    · rw [Real.logb_lt_iff_lt_rpow (by norm_num) (by norm_num)]
      rw [show (((15 : ℤ) : ℝ) + 1) = ((16 : ℕ) : ℝ) by norm_num,
        Real.rpow_natCast]
      norm_num
  have hcsz : specChunkSize = 4 := by
    rw [specChunkSize, hmb, show ((15 : ℤ) : ℚ) = (15 : ℚ) by norm_num,
      Int.ceil_eq_iff]
    norm_num
  refine ⟨?_, ?_, ?_, ?_⟩
  · rw [max_bits_eq, hmb]
    norm_num
  · rw [chunk_size_eq, hcsz]
    norm_num
  · rw [encodeWords, specEncode, hcsz,
      show (4 : ℤ).toNat = 4 from rfl, chunk_size_eq,
      ← chunks_eq_four digest.data, List.map_map]
    apply List.map_congr_left
    intro i _
    show pairToken (hexToNat (sliceLJust digest.data i 4)
        % total_combinations)
      = pairToken (specHexValue (sliceLJust digest.data i 4)
        % (adjectives.length * words_list.length))
    rw [hexToNat_eq_spec]
    rfl
  · intro hL
    rw [finalWords, if_pos hL]

/-- C2, witness: a 32-character hex digest with word-pair bound 2. -/
theorem encoder_matches_spec_witness :
    (∀ c ∈ ("0123456789abcdef0123456789abcdef" : String).data,
        isHexChar c)
    ∧ ((max_bits : ℤ) = specMaxBits
      ∧ (chunk_size : ℤ) = specChunkSize
      ∧ encodeWords "0123456789abcdef0123456789abcdef"
          = specEncode "0123456789abcdef0123456789abcdef"
      ∧ (0 < (2 : ℤ) →
          finalWords 2 (encodeWords "0123456789abcdef0123456789abcdef")
            = (encodeWords "0123456789abcdef0123456789abcdef").take
                (2 : ℤ).toNat)) :=
  ⟨by decide, encoder_matches_spec "0123456789abcdef0123456789abcdef" 2
    (by decide)⟩

end ProjectVersion
